import Mathlib

/-!
Shallow embedding of `src/MusicGen90s.py` (beat-synced music-video generator).

Beat times are modelled as exact rationals: the Python loop computes with
IEEE doubles, but every comparison and sum the beat claims depend on is
reproduced exactly by the rational trace at the inputs involved.  The
gradient pixel arithmetic `int(theme[c] * (i / height))` is NOT exact in
doubles, so it is embedded through an explicit binary64
round-to-nearest-even model `fl` over the rationals (each Python float
operation is one correctly rounded step; `int()` truncates toward zero,
the floor on these non-negative values).
-/

/-- An RGB color triple, channels as natural numbers (Python ints). -/
structure RGB where
  r : ℕ
  g : ℕ
  b : ℕ
deriving DecidableEq, Repr

/-- Fixed output width from `generate_ai_visuals`: `width, height = 1920, 1080`. -/
def imgWidth : ℕ := 1920

/-- Fixed output height from `generate_ai_visuals`. -/
def imgHeight : ℕ := 1080

/-- Round a rational to the nearest integer with ties to even (IEEE-754
default rounding applied at integer granularity). -/
def roundNE (q : ℚ) : ℤ :=
  if q - ⌊q⌋ < 1 / 2 then ⌊q⌋
  else if 1 / 2 < q - ⌊q⌋ then ⌊q⌋ + 1
  else if ⌊q⌋ % 2 = 0 then ⌊q⌋ else ⌊q⌋ + 1

/-- Floor of the base-2 logarithm of a positive rational, via `Nat.log2`
of the floor of `q` (when `q ≥ 1`) or of `1 / q` (when `q < 1`). -/
def floorLog2Pos (q : ℚ) : ℤ :=
  if 1 ≤ q then (Nat.log2 ⌊q⌋₊ : ℤ)
  else if 1 / q ≤ (2 : ℚ) ^ Nat.log2 ⌊1 / q⌋₊ then -(Nat.log2 ⌊1 / q⌋₊ : ℤ)
  else -((Nat.log2 ⌊1 / q⌋₊ : ℤ) + 1)

/-- IEEE binary64 rounding (round to nearest, ties to even) of a
non-negative rational in the normal range: scale into the 53-bit mantissa
window, round the mantissa to an integer, scale back. -/
def fl (q : ℚ) : ℚ :=
  if q ≤ 0 then 0
  else (roundNE (q / 2 ^ (floorLog2Pos q - 52)) : ℚ) * 2 ^ (floorLog2Pos q - 52)

/-- One channel of a gradient row: `int(a * (i / height))` as CPython
evaluates it — the ints convert to binary64 exactly up to 2^53 and are
rounded otherwise, `/` and `*` are correctly rounded, `int()` truncates
(floor, the values being non-negative). -/
def pyChannel (a i : ℕ) : ℕ :=
  ⌊fl (fl (a : ℚ) * fl ((i : ℚ) / 1080))⌋₊

/-- The color drawn on row `i` of the gradient, from
`(int(theme[0] * (i / height)), int(theme[1] * (i / height)), int(theme[2] * (i / height)))`
with `height = 1080`, each channel computed in IEEE doubles via `pyChannel`. -/
def rowColor (theme : RGB) (i : ℕ) : RGB :=
  ⟨pyChannel theme.r i, pyChannel theme.g i, pyChannel theme.b i⟩

/-- One `draw.line([(0, i), (width, i)], fill=color)` call: PIL draws the
horizontal line with inclusive endpoints, clipped to the image, so it
overwrites the entire 1920-pixel row `i` with `c`. -/
def drawHLine (img : List (List RGB)) (i : ℕ) (c : RGB) : List (List RGB) :=
  img.set i (List.replicate imgWidth c)

/-- Embedding of `generate_ai_visuals`: start from `Image.new("RGB", (w, h), theme)`
(every pixel the theme color), then for `i in range(height)` draw row `i`
in `rowColor theme i`.  The image is a list of rows, each a list of pixels. -/
def generate_ai_visuals (theme : RGB) : List (List RGB) :=
  (List.range imgHeight).foldl (fun img i => drawHLine img i (rowColor theme i))
    (List.replicate imgHeight (List.replicate imgWidth theme))

/-- Pixel lookup in the generated image: column `x` of row `y`. -/
def pixelAt (theme : RGB) (x y : ℕ) : Option RGB :=
  ((generate_ai_visuals theme)[y]?).bind fun row => row[x]?

/-- Metadata record: `{"title": ..., "artist": ..., "album": ...}`. -/
structure Metadata where
  title : String
  artist : String
  album : String
deriving DecidableEq, Repr

/-- The defaults `extract_metadata` starts from. -/
def defaultMetadata : Metadata :=
  ⟨"Unknown Title", "Unknown Artist", "Unknown Album"⟩

/-- The tag container of an audio file as `extract_metadata` consumes it:
each of the frames TIT2 (title), TPE1 (artist), TALB (album) is either
absent or carries a `text` list of strings. -/
structure Tags where
  tit2 : Option (List String)
  tpe1 : Option (List String)
  talb : Option (List String)

/-- Outcome of `File(audio_path)` and the subsequent `.tags` access:
the call can raise, return `None`, or return an audio object whose
`tags` attribute is `None`/empty (modelled `none`) or a container. -/
inductive FileResult where
  | raised
  | noContainer
  | withTags (tags : Option Tags)

/-- Reading one frame: `tags.get(KEY, fallback).text[0] if KEY in tags else fallback`.
A present frame with an empty `text` list makes `text[0]` raise `IndexError`. -/
def readTag (field : Option (List String)) (fallback : String) : Except Unit String :=
  match field with
  | none => .ok fallback
  | some [] => .error ()
  | some (s :: _) => .ok s

/-- Embedding of `extract_metadata`.  The whole body sits in a
`try ... except: pass` that returns the metadata dict as updated so far;
`audio is None` and falsy `tags` return the untouched defaults. -/
def extract_metadata (f : FileResult) : Metadata :=
  match f with
  | .raised => defaultMetadata
  | .noContainer => defaultMetadata
  | .withTags none => defaultMetadata
  | .withTags (some t) =>
    match readTag t.tit2 defaultMetadata.title with
    | .error _ => defaultMetadata
    | .ok titleVal =>
      let m1 : Metadata := ⟨titleVal, defaultMetadata.artist, defaultMetadata.album⟩
      match readTag t.tpe1 m1.artist with
      | .error _ => m1
      | .ok artistVal =>
        let m2 : Metadata := ⟨m1.title, artistVal, m1.album⟩
        match readTag t.talb m2.album with
        | .error _ => m2
        | .ok albumVal => ⟨m2.title, m2.artist, albumVal⟩

/-- The condition of claim C4: the file has no tag container or its tags are
unreadable (the read raised, `File` returned `None`, or `tags` is absent). -/
def noReadableTags (f : FileResult) : Prop :=
  f = .raised ∨ f = .noContainer ∨ f = .withTags none

/-- A video transform applied to a segment, with its parameters as in the
source: `brighten` multiplies every pixel by `factor` (then clips to 255),
`cropCentered` keeps the given width/height fractions about the clip center
(`x_center=clip.w/2, y_center=clip.h/2, width=clip.w*f, height=clip.h*f`). -/
inductive VideoOp where
  | brighten (factor : ℚ)
  | cropCentered (widthFrac heightFrac : ℚ)
deriving DecidableEq, Repr

/-- A timeline segment: source interval `[start, stop)` of the base clip plus
the list of transforms applied to it (empty list = identity). -/
structure Seg where
  start : ℚ
  stop : ℚ
  ops : List VideoOp
deriving DecidableEq, Repr

/-- The transform chain of an effect clip:
`.fx(brighten, 1.5).fx(vfx.crop, x_center=w/2, y_center=h/2, width=w*0.9, height=h*0.9)`. -/
def effectOps : List VideoOp :=
  [.brighten (3 / 2), .cropCentered (9 / 10) (9 / 10)]

/-- The loop body of `apply_beat_effects`, with the running cursor `last_t`:
for each beat `bt`, append `clip.subclip(last_t, bt)` when `bt > last_t`,
always append the effect clip `clip.subclip(bt, min(bt + 0.1, clip.duration))`
with `effectOps`, and advance `last_t` to `bt + 0.1`; after the loop append
the tail `clip.subclip(last_t)` when `last_t < clip.duration`. -/
def applyBeatsGo (duration : ℚ) (last_t : ℚ) : List ℚ → List Seg
  | [] => if last_t < duration then [⟨last_t, duration, []⟩] else []
  | bt :: rest =>
    (if bt > last_t then [⟨last_t, bt, []⟩] else []) ++
      ⟨bt, min (bt + 1 / 10) duration, effectOps⟩ :: applyBeatsGo duration (bt + 1 / 10) rest

/-- Embedding of `apply_beat_effects`: the ordered list of segments that
`concatenate_videoclips` receives, starting from cursor `last_t = 0`. -/
def apply_beat_effects (duration : ℚ) (beat_times : List ℚ) : List Seg :=
  applyBeatsGo duration 0 beat_times

/-- `tilesFrom b segs a` checks that `segs` is a contiguous, non-overlapping
cover of exactly `[a, b)`: each segment starts where the cursor stands,
does not run backward, and hands the cursor to the next; the final cursor
is `b`. -/
def tilesFrom (b : ℚ) : List Seg → ℚ → Bool
  | [], a => a == b
  | s :: rest, a => (s.start == a) && decide (s.start ≤ s.stop) && tilesFrom b rest s.stop

/-- Outcome of the interactive handler `generate_video`: either the modal
validation error, or the call into `generate_waveform_video_with_effects`
with both paths. -/
inductive GVOutcome where
  | validationError (msg : String)
  | pipeline (audioPath outputPath : String)
deriving DecidableEq, Repr

/-- Embedding of `generate_video`: Python `not s` on the entry strings is
`s == ""`; on a missing path it shows the error and returns, otherwise it
invokes the pipeline. -/
def generate_video (audio_path output_path : String) : GVOutcome :=
  if audio_path = "" ∨ output_path = "" then
    .validationError "Please select both audio file and output file."
  else
    .pipeline audio_path output_path

/-- The text overlay clip built by the pipeline:
`mp.TextClip(txt, fontsize=24, color='white').set_position(('center', 'bottom')).set_duration(duration)`. -/
structure TextOverlay where
  text : String
  hPos : String
  vPos : String
  fontsize : ℕ
  color : String
  duration : ℚ
deriving DecidableEq, Repr

/-- The f-string `f"Title: ...\nArtist: ...\nAlbum: ..."` of line 103. -/
def metadataText (m : Metadata) : String :=
  "Title: " ++ m.title ++ "\nArtist: " ++ m.artist ++ "\nAlbum: " ++ m.album

/-- The overlay clip with its literal position, font size, color and duration. -/
def metadataOverlay (m : Metadata) (duration : ℚ) : TextOverlay :=
  ⟨metadataText m, "center", "bottom", 24, "white", duration⟩

/-- The final composite the pipeline exports, at the level the claims see it:
the beat-effect segment timeline plus the metadata text overlay
(`CompositeVideoClip([video_with_effects, txt_clip])`). -/
structure FinalVideo where
  segments : List Seg
  overlay : TextOverlay

/-- Embedding of the assembly steps of `generate_waveform_video_with_effects`
that the claims concern: the beat times and duration come from the audio
analysis, the metadata from `extract_metadata` on the same file. -/
def generate_waveform_video_with_effects (duration : ℚ) (beat_times : List ℚ)
    (f : FileResult) : FinalVideo :=
  ⟨apply_beat_effects duration beat_times, metadataOverlay (extract_metadata f) duration⟩

/-! Helper lemmas: characterising the gradient image built by the drawing loop. -/

/-- Folding row-writes over a range preserves the image height. -/
lemma set_foldl_length {α : Type} (g : ℕ → α) (m : ℕ) (img : List α) :
    (List.foldl (fun im i => im.set i (g i)) img (List.range m)).length = img.length := by
  induction m generalizing img with
  | zero => simp
  | succ n ih =>
    rw [List.range_succ, List.foldl_append, List.foldl_cons, List.foldl_nil, List.length_set, ih]

/-- After writing rows `0, ..., m-1` in order, row `y` holds `g y` whenever
`y` was written and is in range; other rows keep their initial content. -/
lemma set_foldl_getElem {α : Type} (g : ℕ → α) (m : ℕ) (init : List α) (y : ℕ) :
    (List.foldl (fun im i => im.set i (g i)) init (List.range m))[y]? =
      if y < m ∧ y < init.length then some (g y) else init[y]? := by
  induction m with
  | zero => simp
  | succ n ih =>
    rw [List.range_succ, List.foldl_append, List.foldl_cons, List.foldl_nil, List.getElem?_set]
    have hlen := set_foldl_length g n init
    rcases eq_or_ne n y with h | h
    · rw [if_pos h, hlen]
      by_cases hy : y < init.length
      · rw [if_pos (h ▸ hy), if_pos ⟨by omega, hy⟩, h]
      · rw [if_neg (h ▸ hy), if_neg (by omega), List.getElem?_eq_none (by omega)]
    · rw [if_neg h, ih]
      by_cases hy : y < n ∧ y < init.length
      · rw [if_pos hy, if_pos ⟨by omega, hy.2⟩]
      · rw [if_neg hy, if_neg (by omega)]

/-- Every in-range row of the generated gradient is the full-width line in
its `rowColor`; the initial theme fill is completely overwritten. -/
lemma generate_ai_visuals_getElem (theme : RGB) (y : ℕ) (hy : y < imgHeight) :
    (generate_ai_visuals theme)[y]? = some (List.replicate imgWidth (rowColor theme y)) := by
  have h := set_foldl_getElem (fun i => List.replicate imgWidth (rowColor theme i)) imgHeight
    (List.replicate imgHeight (List.replicate imgWidth theme)) y
  rw [generate_ai_visuals]
  simp only [drawHLine]
  rw [h, if_pos ⟨hy, by simpa using hy⟩]

/-- Every in-range pixel of the generated gradient is its row's color. -/
lemma pixelAt_eq (theme : RGB) (x y : ℕ) (hx : x < imgWidth) (hy : y < imgHeight) :
    pixelAt theme x y = some (rowColor theme y) := by
  rw [pixelAt, generate_ai_visuals_getElem theme y hy]
  simp [List.getElem?_replicate, hx]

/-! Helper lemmas: the segment list built by the beat loop. -/

/-- Main invariant of `apply_beat_effects`: when the cursor does not exceed
the duration, every remaining beat lies between cursor and duration, and
consecutive beats are at least the effect window apart, the produced
segments tile `[last_t, duration)` exactly. -/
lemma tilesFrom_applyBeatsGo (duration : ℚ) (beats : List ℚ) :
    ∀ t : ℚ, t ≤ duration →
      (∀ b ∈ beats, t ≤ b ∧ b ≤ duration) →
      List.Pairwise (fun a b => a + 1 / 10 ≤ b) beats →
      tilesFrom duration (applyBeatsGo duration t beats) t = true := by
  induction beats with
  | nil =>
    intro t ht _ _
    rw [applyBeatsGo]
    by_cases h : t < duration
    · rw [if_pos h]
      simp [tilesFrom, ht]
    · rw [if_neg h]
      have heq : t = duration := le_antisymm ht (not_lt.1 h)
      simp [tilesFrom, heq]
  | cons bt rest ih =>
    intro t ht hmem hpw
    obtain ⟨htb, hbd⟩ := hmem bt (List.mem_cons_self bt rest)
    rw [List.pairwise_cons] at hpw
    have hcont : tilesFrom duration (applyBeatsGo duration (bt + 1 / 10) rest)
        (min (bt + 1 / 10) duration) = true := by
      by_cases hle : bt + 1 / 10 ≤ duration
      · rw [min_eq_left hle]
        refine ih (bt + 1 / 10) hle (fun b hb => ⟨hpw.1 b hb, (hmem b (List.mem_cons_of_mem bt hb)).2⟩) hpw.2
      · rw [min_eq_right (le_of_not_le hle)]
        match rest, hpw, hmem with
        | [], _, _ =>
          rw [applyBeatsGo, if_neg (by simp at hle ⊢; linarith)]
          simp [tilesFrom]
        | b' :: rest', hpw', hmem' =>
          exact absurd ((hmem' b' (by simp)).2) (by have := hpw'.1 b' (by simp); push_neg at hle; intro hc; linarith)
    rw [applyBeatsGo]
    by_cases hbt : bt > t
    · rw [if_pos hbt]
      rw [List.singleton_append, tilesFrom, tilesFrom]
      simp only [beq_self_eq_true, Bool.true_and]
      rw [hcont]
      simp only [Bool.and_true, Bool.and_eq_true, decide_eq_true_eq]
      exact ⟨le_of_lt hbt, le_min (by linarith) hbd⟩
    · have heq : bt = t := le_antisymm (not_lt.1 hbt) htb
      rw [if_neg hbt]
      rw [List.nil_append, tilesFrom]
      rw [hcont]
      simp only [heq, beq_self_eq_true, Bool.true_and, Bool.and_true, decide_eq_true_eq]
      exact le_min (by linarith) ht

/-- Every beat in the list receives its effect segment
`[bt, min (bt + 0.1) duration)` with the brighten-then-crop chain,
whatever the cursor position: the loop appends it unconditionally. -/
lemma effect_mem_applyBeatsGo (duration : ℚ) (beats : List ℚ) :
    ∀ t : ℚ, ∀ bt ∈ beats,
      (⟨bt, min (bt + 1 / 10) duration, effectOps⟩ : Seg) ∈ applyBeatsGo duration t beats := by
  induction beats with
  | nil => intro t bt h; cases h
  | cons b rest ih =>
    intro t bt hbt
    rw [applyBeatsGo]
    rcases List.mem_cons.1 hbt with h | h
    · subst h
      exact List.mem_append_right _ (List.mem_cons_self _ _)
    · exact List.mem_append_right _ (List.mem_cons_of_mem _ (ih (b + 1 / 10) bt h))

/-! Helper lemmas: the binary64 rounding model and the drawn channel values. -/

lemma floorLog2Pos_spec {q : ℚ} (hq : 0 < q) :
    (2 : ℚ) ^ floorLog2Pos q ≤ q ∧ q < (2 : ℚ) ^ (floorLog2Pos q + 1) := by
  rw [floorLog2Pos]
  by_cases h1 : 1 ≤ q
  · rw [if_pos h1]
    have hfl : ⌊q⌋₊ ≠ 0 := by
      have h2 : (1 : ℕ) ≤ ⌊q⌋₊ := Nat.le_floor (by exact_mod_cast h1)
      omega
    constructor
    · have h2 : (2 : ℕ) ^ ⌊q⌋₊.log2 ≤ ⌊q⌋₊ := Nat.log2_self_le hfl
      have h3 : ((2 : ℕ) ^ ⌊q⌋₊.log2 : ℚ) ≤ (⌊q⌋₊ : ℚ) := by exact_mod_cast h2
      calc (2 : ℚ) ^ (⌊q⌋₊.log2 : ℤ) = ((2 : ℕ) ^ ⌊q⌋₊.log2 : ℚ) := by
            rw [zpow_natCast]; push_cast; ring
        _ ≤ (⌊q⌋₊ : ℚ) := h3
        _ ≤ q := Nat.floor_le (le_of_lt hq)
    · have h2 : ⌊q⌋₊ < 2 ^ (⌊q⌋₊.log2 + 1) := Nat.lt_log2_self
      have h4 : ((⌊q⌋₊ : ℚ)) + 1 ≤ ((2 : ℕ) ^ (⌊q⌋₊.log2 + 1) : ℚ) := by exact_mod_cast h2
      calc q < (⌊q⌋₊ : ℚ) + 1 := Nat.lt_floor_add_one q
        _ ≤ ((2 : ℕ) ^ (⌊q⌋₊.log2 + 1) : ℚ) := h4
        _ = (2 : ℚ) ^ ((⌊q⌋₊.log2 : ℤ) + 1) := by
            rw [show ((⌊q⌋₊.log2 : ℤ) + 1) = ((⌊q⌋₊.log2 + 1 : ℕ) : ℤ) by push_cast; ring,
              zpow_natCast]
            push_cast; ring
  · rw [if_neg h1]
    push_neg at h1
    have hr1 : 1 < 1 / q := by rw [one_div]; exact (one_lt_inv₀ hq).2 h1
    have hrpos : 0 < 1 / q := by positivity
    have hd1 : (1 : ℕ) ≤ ⌊1 / q⌋₊ := Nat.le_floor (by exact_mod_cast le_of_lt hr1)
    have hdne : ⌊1 / q⌋₊ ≠ 0 := by omega
    have hdle : ((2 : ℕ) ^ ⌊1 / q⌋₊.log2 : ℚ) ≤ (⌊1 / q⌋₊ : ℚ) := by
      exact_mod_cast Nat.log2_self_le hdne
    have hdlt : ((⌊1 / q⌋₊ : ℚ)) + 1 ≤ ((2 : ℕ) ^ (⌊1 / q⌋₊.log2 + 1) : ℚ) := by
      exact_mod_cast (Nat.lt_log2_self (n := ⌊1 / q⌋₊))
    have hfloorle : (⌊1 / q⌋₊ : ℚ) ≤ 1 / q := Nat.floor_le (le_of_lt hrpos)
    have hfloorgt : 1 / q < (⌊1 / q⌋₊ : ℚ) + 1 := Nat.lt_floor_add_one _
    set L := ⌊1 / q⌋₊.log2 with hL
    have hpowpos : (0 : ℚ) < (2 : ℚ) ^ (L : ℤ) := zpow_pos (by norm_num) _
    have hcast : ((2 : ℕ) ^ L : ℚ) = (2 : ℚ) ^ (L : ℤ) := by
      rw [zpow_natCast]; push_cast; ring
    by_cases h2 : 1 / q ≤ (2 : ℚ) ^ L
    · rw [if_pos h2]
      constructor
      · rw [zpow_neg, zpow_natCast]
        rw [inv_le_comm₀ (by positivity) hq]
        rw [one_div] at h2
        exact_mod_cast h2
      · have hstep : (2 : ℚ) ^ ((-(L : ℤ)) + 1) = 2 / (2 : ℚ) ^ (L : ℤ) := by
          rw [zpow_add₀ (by norm_num : (2 : ℚ) ≠ 0), zpow_neg]
          field_simp
        rw [hstep]
        rw [lt_div_iff₀ hpowpos]
        have h3 : (2 : ℚ) ^ (L : ℤ) ≤ 1 / q := le_trans (by rw [← hcast]; exact hdle) hfloorle
        rw [one_div] at h3
        have h4 : q * (2 : ℚ) ^ (L : ℤ) ≤ 1 := by
          calc q * (2 : ℚ) ^ (L : ℤ) ≤ q * q⁻¹ := by
                apply mul_le_mul_of_nonneg_left h3 (le_of_lt hq)
            _ = 1 := mul_inv_cancel₀ (ne_of_gt hq)
        linarith
    · rw [if_neg h2]
      push_neg at h2
      constructor
      · rw [show (-((L : ℤ) + 1)) = -(((L + 1 : ℕ) : ℤ)) by push_cast; ring]
        rw [zpow_neg, zpow_natCast]
        rw [inv_le_comm₀ (by positivity) hq]
        have h3 : 1 / q ≤ ((2 : ℕ) ^ (L + 1) : ℚ) := le_trans (le_of_lt hfloorgt) hdlt
        rw [one_div] at h3
        exact_mod_cast h3
      · rw [show (-((L : ℤ) + 1) + 1) = -(L : ℤ) by ring]
        rw [zpow_neg, zpow_natCast]
        rw [lt_inv_comm₀ hq (by positivity)]
        rw [one_div] at h2
        exact_mod_cast h2

lemma floorLog2Pos_eq {q : ℚ} (w : ℤ) (hq : 0 < q)
    (h1 : (2 : ℚ) ^ w ≤ q) (h2 : q < (2 : ℚ) ^ (w + 1)) : floorLog2Pos q = w := by
  obtain ⟨hs1, hs2⟩ := floorLog2Pos_spec hq
  by_contra hne
  rcases lt_or_gt_of_ne hne with h | h
  · have h3 : (2 : ℚ) ^ (floorLog2Pos q + 1) ≤ (2 : ℚ) ^ w :=
      zpow_le_zpow_right₀ one_le_two (by omega)
    linarith
  · have h3 : (2 : ℚ) ^ (w + 1) ≤ (2 : ℚ) ^ (floorLog2Pos q) :=
      zpow_le_zpow_right₀ one_le_two (by omega)
    linarith

lemma roundNE_le (q : ℚ) : (roundNE q : ℚ) ≤ q + 1 / 2 := by
  rw [roundNE]
  have hf := Int.floor_le q
  split_ifs with h1 h2 h3
  · linarith
  · push_cast; linarith
  · linarith
  · push_cast
    have h4 : q - ⌊q⌋ = 1 / 2 := le_antisymm (not_lt.1 h2) (not_lt.1 h1)
    linarith

lemma le_roundNE (q : ℚ) : q - 1 / 2 ≤ (roundNE q : ℚ) := by
  rw [roundNE]
  have hf := Int.lt_floor_add_one q
  split_ifs with h1 h2 h3
  · linarith
  · push_cast; linarith
  · have h4 : q - ⌊q⌋ = 1 / 2 := le_antisymm (not_lt.1 h2) (not_lt.1 h1)
    linarith
  · push_cast; linarith

lemma roundNE_intCast (m : ℤ) : roundNE (m : ℚ) = m := by
  rw [roundNE, Int.floor_intCast]
  norm_num

lemma fl_of_pos {q : ℚ} (hq : 0 < q) :
    fl q = (roundNE (q / 2 ^ (floorLog2Pos q - 52)) : ℚ) * 2 ^ (floorLog2Pos q - 52) := by
  rw [fl, if_neg (not_le.2 hq)]

lemma fl_zero : fl 0 = 0 := by
  rw [fl, if_pos le_rfl]

lemma fl_err {q : ℚ} (hq : 0 < q) :
    q - q / 2 ^ 53 ≤ fl q ∧ fl q ≤ q + q / 2 ^ 53 := by
  obtain ⟨hs1, hs2⟩ := floorLog2Pos_spec hq
  set z := floorLog2Pos q with hz
  set s : ℚ := 2 ^ (z - 52) with hs
  have hspos : (0 : ℚ) < s := zpow_pos (by norm_num) _
  have key : s * 2 ^ (52 : ℕ) = (2 : ℚ) ^ z := by
    rw [hs, ← zpow_natCast (2 : ℚ) 52, ← zpow_add₀ (two_ne_zero)]
    congr 1
    ring
  have hkey : s * 2 ^ (52 : ℕ) ≤ q := by rw [key]; exact hs1
  have hhalf : s / 2 ≤ q / 2 ^ 53 := by
    rw [div_le_div_iff₀ (by norm_num) (by norm_num)]
    nlinarith
  have h1 : (roundNE (q / s) : ℚ) ≤ q / s + 1 / 2 := roundNE_le _
  have h2 : q / s - 1 / 2 ≤ (roundNE (q / s) : ℚ) := le_roundNE _
  have hfl : fl q = (roundNE (q / s) : ℚ) * s := fl_of_pos hq
  have hqss : q / s * s = q := div_mul_cancel₀ q (ne_of_gt hspos)
  constructor
  · have h3 : (q / s - 1 / 2) * s ≤ (roundNE (q / s) : ℚ) * s :=
      mul_le_mul_of_nonneg_right h2 (le_of_lt hspos)
    rw [sub_mul, hqss] at h3
    rw [hfl]
    linarith
  · have h3 : (roundNE (q / s) : ℚ) * s ≤ (q / s + 1 / 2) * s :=
      mul_le_mul_of_nonneg_right h1 (le_of_lt hspos)
    rw [add_mul, hqss] at h3
    rw [hfl]
    linarith

lemma fl_nonneg (q : ℚ) : 0 ≤ fl q := by
  by_cases h : q ≤ 0
  · rw [fl, if_pos h]
  · push_neg at h
    obtain ⟨h1, _⟩ := fl_err h
    have h2 : q / 2 ^ 53 ≤ q := div_le_self (le_of_lt h) (by norm_num)
    linarith

lemma fl_dyadic (m e : ℤ) (h1 : 2 ^ 52 ≤ m) (h2 : m < 2 ^ 53) :
    fl ((m : ℚ) * 2 ^ e) = (m : ℚ) * 2 ^ e := by
  have hm0 : (0 : ℚ) < (m : ℚ) := by
    have : (0 : ℤ) < m := by positivity
    exact_mod_cast this
  have hepos : (0 : ℚ) < (2 : ℚ) ^ e := zpow_pos (by norm_num) _
  have hq : 0 < (m : ℚ) * 2 ^ e := mul_pos hm0 hepos
  have hz : floorLog2Pos ((m : ℚ) * 2 ^ e) = 52 + e := by
    apply floorLog2Pos_eq _ hq
    · rw [zpow_add₀ (two_ne_zero)]
      apply mul_le_mul_of_nonneg_right _ (le_of_lt hepos)
      have h3 : ((2 ^ 52 : ℤ) : ℚ) ≤ (m : ℚ) := by exact_mod_cast h1
      calc (2 : ℚ) ^ (52 : ℤ) = ((2 ^ 52 : ℤ) : ℚ) := by norm_num
        _ ≤ (m : ℚ) := h3
    · rw [show (52 : ℤ) + e + 1 = 53 + e by ring, zpow_add₀ (two_ne_zero)]
      apply mul_lt_mul_of_pos_right _ hepos
      have h3 : (m : ℚ) < ((2 ^ 53 : ℤ) : ℚ) := by exact_mod_cast h2
      calc (m : ℚ) < ((2 ^ 53 : ℤ) : ℚ) := h3
        _ = (2 : ℚ) ^ (53 : ℤ) := by norm_num
  rw [fl_of_pos hq, hz, show (52 : ℤ) + e - 52 = e by ring]
  rw [mul_div_assoc, div_self (ne_of_gt hepos), mul_one, roundNE_intCast]

lemma fl_natCast (n : ℕ) (h : n ≤ 2 ^ 52) : fl (n : ℚ) = n := by
  rcases Nat.eq_zero_or_pos n with rfl | hn
  · simpa using fl_zero
  have hne : n ≠ 0 := by omega
  set L := Nat.log2 n with hL
  have hL52 : L ≤ 52 := by
    have h1 : L < 53 := (Nat.log2_lt hne).2 (by omega)
    omega
  have hlow : 2 ^ L ≤ n := Nat.log2_self_le hne
  have hhigh : n < 2 ^ (L + 1) := Nat.lt_log2_self
  have hsum : L + (52 - L) = 52 := by omega
  have hm1 : (2 ^ 52 : ℤ) ≤ ((n * 2 ^ (52 - L) : ℕ) : ℤ) := by
    have h2 : 2 ^ L * 2 ^ (52 - L) ≤ n * 2 ^ (52 - L) :=
      Nat.mul_le_mul_right _ hlow
    rw [← pow_add, hsum] at h2
    exact_mod_cast h2
  have hm2 : ((n * 2 ^ (52 - L) : ℕ) : ℤ) < 2 ^ 53 := by
    have h2 : n * 2 ^ (52 - L) < 2 ^ (L + 1) * 2 ^ (52 - L) :=
      Nat.mul_lt_mul_of_lt_of_le hhigh (le_refl _) (by positivity)
    rw [← pow_add] at h2
    have h3 : L + 1 + (52 - L) = 53 := by omega
    rw [h3] at h2
    exact_mod_cast h2
  have key : (n : ℚ) = (((n * 2 ^ (52 - L) : ℕ) : ℤ) : ℚ) * 2 ^ ((L : ℤ) - 52) := by
    push_cast
    rw [mul_assoc, show ((2 : ℚ) ^ (52 - L)) = (2 : ℚ) ^ (((52 - L : ℕ)) : ℤ) by
      rw [zpow_natCast]]
    rw [← zpow_add₀ (two_ne_zero), show (((52 - L : ℕ)) : ℤ) + ((L : ℤ) - 52) = 0 by omega,
      zpow_zero, mul_one]
  rw [key, fl_dyadic _ _ hm1 hm2]

lemma pyChannel_bracket (a y : ℕ) (ha : a ≤ 255) (hy : y < 1080) :
    pyChannel a y ≤ a * y / 1080 ∧ a * y / 1080 ≤ pyChannel a y + 1 := by
  rcases Nat.eq_zero_or_pos a with rfl | hapos
  · simp [pyChannel, fl_zero]
  rcases Nat.eq_zero_or_pos y with rfl | hypos
  · simp [pyChannel, fl_zero]
  have hfla : fl (a : ℚ) = a := fl_natCast a (le_trans ha (by norm_num))
  have hyq : (0 : ℚ) < (y : ℚ) := by exact_mod_cast hypos
  have haq : (0 : ℚ) < (a : ℚ) := by exact_mod_cast hapos
  have haq255 : (a : ℚ) ≤ 255 := by exact_mod_cast ha
  have hyq1080 : (y : ℚ) ≤ 1079 := by
    have h1 : y ≤ 1079 := by omega
    exact_mod_cast h1
  set Q1 : ℚ := (y : ℚ) / 1080 with hQ1
  have hQ1pos : 0 < Q1 := by positivity
  obtain ⟨hx1l, hx1u⟩ := fl_err hQ1pos
  set x1 : ℚ := fl Q1 with hx1
  have hx1pos : 0 < x1 := by
    have h2 : Q1 / 2 ^ 53 < Q1 := by
      apply div_lt_self hQ1pos (by norm_num)
    linarith
  set E : ℚ := (a : ℚ) * Q1 with hE
  have hEpos : 0 < E := mul_pos haq hQ1pos
  have hE255 : E ≤ 255 := by
    have h2 : Q1 ≤ 1 := by rw [hQ1]; rw [div_le_one (by norm_num)]; linarith
    calc E = (a : ℚ) * Q1 := rfl
      _ ≤ 255 * 1 := mul_le_mul haq255 h2 (le_of_lt hQ1pos) (by norm_num)
      _ = 255 := by norm_num
  set Q2 : ℚ := (a : ℚ) * x1 with hQ2
  have hQ2pos : 0 < Q2 := mul_pos haq hx1pos
  obtain ⟨hy2l, hy2u⟩ := fl_err hQ2pos
  set y2 : ℚ := fl Q2 with hy2
  have hQ2u : Q2 ≤ E + E / 2 ^ 53 := by
    have h2 : (a : ℚ) * x1 ≤ (a : ℚ) * (Q1 + Q1 / 2 ^ 53) :=
      mul_le_mul_of_nonneg_left hx1u (le_of_lt haq)
    calc Q2 = (a : ℚ) * x1 := rfl
      _ ≤ (a : ℚ) * (Q1 + Q1 / 2 ^ 53) := h2
      _ = E + E / 2 ^ 53 := by rw [hE]; ring
  have hQ2l : E - E / 2 ^ 53 ≤ Q2 := by
    have h2 : (a : ℚ) * (Q1 - Q1 / 2 ^ 53) ≤ (a : ℚ) * x1 :=
      mul_le_mul_of_nonneg_left hx1l (le_of_lt haq)
    calc E - E / 2 ^ 53 = (a : ℚ) * (Q1 - Q1 / 2 ^ 53) := by rw [hE]; ring
      _ ≤ (a : ℚ) * x1 := h2
      _ = Q2 := rfl
  set k : ℕ := a * y / 1080 with hk
  have hmod := Nat.div_add_mod (a * y) 1080
  have hmodlt : (a * y) % 1080 < 1080 := Nat.mod_lt _ (by norm_num)
  have hkE : (k : ℚ) ≤ E := by
    have h2 : 1080 * k ≤ a * y := by omega
    have h3 : ((1080 * k : ℕ) : ℚ) ≤ ((a * y : ℕ) : ℚ) := by exact_mod_cast h2
    push_cast at h3
    rw [hE, hQ1, show (a : ℚ) * ((y : ℚ) / 1080) = ((a : ℚ) * (y : ℚ)) / 1080 by ring,
      le_div_iff₀ (by norm_num : (0 : ℚ) < 1080)]
    linarith
  have hEk : E ≤ (k : ℚ) + 1 - 1 / 1080 := by
    have h2 : a * y ≤ 1080 * k + 1079 := by omega
    have h3 : ((a * y : ℕ) : ℚ) ≤ ((1080 * k + 1079 : ℕ) : ℚ) := by exact_mod_cast h2
    push_cast at h3
    rw [hE, hQ1, show (a : ℚ) * ((y : ℚ) / 1080) = ((a : ℚ) * (y : ℚ)) / 1080 by ring,
      div_le_iff₀ (by norm_num : (0 : ℚ) < 1080)]
    linarith
  have hy2nn : 0 ≤ y2 := fl_nonneg _
  have hupper : y2 < (k : ℚ) + 1 := by linarith
  have hlower : (k : ℚ) - 1 < y2 := by linarith
  constructor
  · have h2 : ⌊y2⌋₊ < k + 1 := by
      rw [Nat.floor_lt hy2nn]
      push_cast
      exact hupper
    have h3 : pyChannel a y = ⌊y2⌋₊ := by
      rw [pyChannel, hfla]
    omega
  · have h2 : pyChannel a y = ⌊y2⌋₊ := by
      rw [pyChannel, hfla]
    rcases Nat.eq_zero_or_pos k with hk0 | hkpos
    · omega
    · have h3 : (k - 1 : ℕ) ≤ ⌊y2⌋₊ := by
        apply Nat.le_floor
        have h4 : ((k - 1 : ℕ) : ℚ) = (k : ℚ) - 1 := by
          push_cast [Nat.cast_sub hkpos]
          ring
        rw [h4]
        linarith
      omega


lemma fl_half : fl ((1 : ℚ) / 2) = 1 / 2 := by
  have h : ((1 : ℚ) / 2) = (((2 ^ 52 : ℤ)) : ℚ) * 2 ^ (-53 : ℤ) := by
    rw [show (-53 : ℤ) = -(53 : ℕ) by norm_num, zpow_neg, zpow_natCast]
    norm_num
  rw [h, fl_dyadic _ _ (le_refl _) (by norm_num)]

lemma fl_255_half : fl ((255 : ℚ) / 2) = 255 / 2 := by
  have h : ((255 : ℚ) / 2) = (((255 * 2 ^ 45 : ℤ)) : ℚ) * 2 ^ (-46 : ℤ) := by
    rw [show (-46 : ℤ) = -(46 : ℕ) by norm_num, zpow_neg, zpow_natCast]
    norm_num
  rw [h, fl_dyadic _ _ (by norm_num) (by norm_num)]

lemma pyChannel_255_540 : pyChannel 255 540 = 127 := by
  rw [pyChannel]
  rw [show ((540 : ℕ) : ℚ) / 1080 = 1 / 2 by norm_num]
  rw [fl_half, fl_natCast 255 (by norm_num)]
  rw [show (((255 : ℕ) : ℚ)) * (1 / 2) = 255 / 2 by norm_num]
  rw [fl_255_half]
  rw [Nat.floor_eq_iff (by norm_num)]
  norm_num

lemma pyChannel_of_zero (i : ℕ) : pyChannel 0 i = 0 := by
  simp [pyChannel, fl_zero]

lemma fl_eval (q : ℚ) (z m : ℤ) (hq : 0 < q)
    (h1 : (2 : ℚ) ^ z ≤ q) (h2 : q < (2 : ℚ) ^ (z + 1))
    (h3 : roundNE (q / 2 ^ (z - 52)) = m) :
    fl q = (m : ℚ) * 2 ^ (z - 52) := by
  rw [fl_of_pos hq, floorLog2Pos_eq z hq h1 h2, h3]

lemma pyChannel_45_312 : pyChannel 45 312 = 12 := by
  rw [pyChannel]
  rw [show ((312 : ℕ) : ℚ) / 1080 = 13 / 45 by norm_num]
  rw [fl_natCast 45 (by norm_num)]
  have hx1 : fl ((13 : ℚ) / 45) = (5204159569405906 : ℚ) * 2 ^ (-54 : ℤ) := by
    have h1 : (2 : ℚ) ^ (-2 : ℤ) ≤ 13 / 45 := by
      rw [show (-2 : ℤ) = -(2 : ℕ) by norm_num, zpow_neg, zpow_natCast]
      norm_num
    have h2 : (13 : ℚ) / 45 < (2 : ℚ) ^ ((-2 : ℤ) + 1) := by
      rw [show ((-2 : ℤ) + 1) = -(1 : ℕ) by norm_num, zpow_neg, zpow_natCast]
      norm_num
    have h3 : roundNE ((13 : ℚ) / 45 / 2 ^ ((-2 : ℤ) - 52)) = 5204159569405906 := by
      rw [show ((-2 : ℤ) - 52) = -(54 : ℕ) by norm_num, zpow_neg, zpow_natCast]
      rw [show (13 : ℚ) / 45 / ((2 : ℚ) ^ (54 : ℕ))⁻¹ = 234187180623265792 / 45 by norm_num]
      have hfloor : ⌊(234187180623265792 : ℚ) / 45⌋ = 5204159569405906 := by
        rw [Int.floor_eq_iff]
        norm_num
      rw [roundNE, hfloor, if_pos (by push_cast; norm_num)]
    have h4 := fl_eval ((13 : ℚ) / 45) (-2) 5204159569405906 (by norm_num) h1 h2 h3
    rw [h4]
    norm_num
  rw [hx1]
  have hq2 : ((45 : ℕ) : ℚ) * ((5204159569405906 : ℚ) * 2 ^ (-54 : ℤ)) =
      (117093590311632885 : ℚ) * 2 ^ (-53 : ℤ) := by
    rw [show (-54 : ℤ) = -(54 : ℕ) by norm_num, show (-53 : ℤ) = -(53 : ℕ) by norm_num,
      zpow_neg, zpow_natCast, zpow_neg, zpow_natCast]
    norm_num
  rw [hq2]
  have hy2 : fl ((117093590311632885 : ℚ) * 2 ^ (-53 : ℤ)) =
      (7318349394477055 : ℚ) * 2 ^ (-49 : ℤ) := by
    have hpos : (0 : ℚ) < (117093590311632885 : ℚ) * 2 ^ (-53 : ℤ) :=
      mul_pos (by norm_num) (zpow_pos (by norm_num) _)
    have hval : (117093590311632885 : ℚ) * 2 ^ (-53 : ℤ) =
        117093590311632885 / 9007199254740992 := by
      rw [show (-53 : ℤ) = -(53 : ℕ) by norm_num, zpow_neg, zpow_natCast]
      norm_num
    have h1 : (2 : ℚ) ^ (3 : ℤ) ≤ (117093590311632885 : ℚ) * 2 ^ (-53 : ℤ) := by
      rw [hval, show (3 : ℤ) = ((3 : ℕ) : ℤ) by norm_num, zpow_natCast]
      norm_num
    have h2 : (117093590311632885 : ℚ) * 2 ^ (-53 : ℤ) < (2 : ℚ) ^ ((3 : ℤ) + 1) := by
      rw [hval, show ((3 : ℤ) + 1) = ((4 : ℕ) : ℤ) by norm_num, zpow_natCast]
      norm_num
    have h3 : roundNE ((117093590311632885 : ℚ) * 2 ^ (-53 : ℤ) / 2 ^ ((3 : ℤ) - 52)) =
        7318349394477055 := by
      rw [hval, show ((3 : ℤ) - 52) = -(49 : ℕ) by norm_num, zpow_neg, zpow_natCast]
      rw [show (117093590311632885 : ℚ) / 9007199254740992 / ((2 : ℚ) ^ (49 : ℕ))⁻¹ =
        117093590311632885 / 16 by norm_num]
      have hfloor : ⌊(117093590311632885 : ℚ) / 16⌋ = 7318349394477055 := by
        rw [Int.floor_eq_iff]
        norm_num
      rw [roundNE, hfloor, if_pos (by push_cast; norm_num)]
    have h4 := fl_eval _ 3 7318349394477055 hpos h1 h2 h3
    rw [h4]
    norm_num
  rw [hy2]
  rw [show (7318349394477055 : ℚ) * 2 ^ (-49 : ℤ) =
    7318349394477055 / 562949953421312 by
      rw [show (-49 : ℤ) = -(49 : ℕ) by norm_num, zpow_neg, zpow_natCast]
      norm_num]
  rw [Nat.floor_eq_iff (by norm_num)]
  norm_num

/-! Claim theorems. -/

/-- C1, counterexample: on beats `[2.0, 2.05, 5.0]` and duration `6.0`,
`apply_beat_effects` does not produce the five-segment sequence the claim
states (with the 2.05 beat dropped): the loop appends an effect clip for
every beat unconditionally, so the output differs. -/
theorem c1_counterexample :
    apply_beat_effects 6 [2, 41 / 20, 5] ≠
      [⟨0, 2, []⟩, ⟨2, 21 / 10, effectOps⟩, ⟨21 / 10, 5, []⟩,
       ⟨5, 51 / 10, effectOps⟩, ⟨51 / 10, 6, []⟩] := by
  norm_num [apply_beat_effects, applyBeatsGo, min_def]

/-- C1, amended: on beats `[2.0, 2.05, 5.0]` and duration `6.0` the code
produces identity `[0,2.0)`, effect `[2.0,2.1)`, effect `[2.05,2.15)`,
identity `[2.15,5.0)`, effect `[5.0,5.1)`, identity `[5.1,6.0)`: the beat
at 2.05 is not dropped but yields an extra effect segment overlapping the
previous one in source time, so `[2.05,2.1)` is shown twice and the
concatenation is 6.05 s long, not 6.0 s. -/
theorem c1_amended_holds :
    apply_beat_effects 6 [2, 41 / 20, 5] =
      [⟨0, 2, []⟩, ⟨2, 21 / 10, effectOps⟩, ⟨41 / 20, 43 / 20, effectOps⟩,
       ⟨43 / 20, 5, []⟩, ⟨5, 51 / 10, effectOps⟩, ⟨51 / 10, 6, []⟩] := by
  norm_num [apply_beat_effects, applyBeatsGo, min_def]

/-- C2, counterexample: for the sorted beat list `[0, 0.05]` and duration
`1.0` the produced segments are not a contiguous non-overlapping cover of
`[0, 1)` (the second effect segment restarts at 0.05 inside the first
effect window). -/
theorem c2_counterexample :
    List.Pairwise (· ≤ ·) [(0 : ℚ), 1 / 20] ∧
      tilesFrom 1 (apply_beat_effects 1 [(0 : ℚ), 1 / 20]) 0 = false := by
  constructor
  · norm_num
  · norm_num [apply_beat_effects, applyBeatsGo, tilesFrom, min_def]

/-- C2, amended: when consecutive beats are at least the 0.1 s effect
window apart and every beat lies within `[0, duration]` (with a
non-negative duration), the segment list of `apply_beat_effects` is a
contiguous, non-overlapping cover of exactly `[0, duration)`. -/
theorem c2_amended_holds (duration : ℚ) (beats : List ℚ)
    (hdur : 0 ≤ duration)
    (hgap : List.Pairwise (fun a b => a + 1 / 10 ≤ b) beats)
    (hrange : ∀ b ∈ beats, 0 ≤ b ∧ b ≤ duration) :
    tilesFrom duration (apply_beat_effects duration beats) 0 = true :=
  tilesFrom_applyBeatsGo duration beats 0 hdur hrange hgap

/-- C2, amended, witness: beats `[2, 3, 5]` on a 6-second clip tile exactly. -/
theorem c2_amended_witness :
    tilesFrom 6 (apply_beat_effects 6 [2, 3, 5]) 0 = true :=
  c2_amended_holds 6 [2, 3, 5] (by norm_num)
    (by norm_num [List.pairwise_cons])
    (by intro b hb; rcases List.mem_cons.1 hb with rfl | hb <;>
          [skip; rcases List.mem_cons.1 hb with rfl | hb] <;>
          [norm_num; norm_num; (rcases List.mem_singleton.1 hb with rfl; norm_num)])

/-- C3, counterexample: for theme `(255, 0, 0)` at row 540 the code writes
channel value `int(255 * 540 / 1080) = 127`, while rounding
`255 * 540 / 1080 = 127.5` to the nearest integer gives 128: the code
truncates, it does not round to nearest. -/
theorem c3_counterexample :
    pixelAt ⟨255, 0, 0⟩ 0 540 = some ⟨127, 0, 0⟩ ∧
      round ((255 * 540 : ℚ) / 1080) ≠ (127 : ℤ) := by
  constructor
  · rw [pixelAt_eq ⟨255, 0, 0⟩ 0 540 (by norm_num [imgWidth]) (by norm_num [imgHeight])]
    simp [rowColor, pyChannel_255_540, pyChannel_of_zero]
  · norm_num [round_eq]

/-- C3, amended: for every theme with byte channels and every pixel
`(x, y)`, the channel the code writes is the truncated IEEE-double product
`int(theme[c] * (y/1080))`: it never exceeds `⌊r*y/H⌋` (so it is a
truncation, never a rounding to nearest) and it is at most one below it —
double rounding can land just under an exact multiple, as at channel 45,
row 312, where the code yields 12 while the exact floor is 13
(`pyChannel_45_312`). -/
theorem c3_amended_holds (theme : RGB) (x y : ℕ)
    (hr : theme.r ≤ 255) (hg : theme.g ≤ 255) (hb : theme.b ≤ 255)
    (hx : x < 1920) (hy : y < 1080) :
    ∃ c : RGB, pixelAt theme x y = some c ∧
      c.r ≤ ⌊(theme.r * y : ℚ) / 1080⌋₊ ∧ ⌊(theme.r * y : ℚ) / 1080⌋₊ ≤ c.r + 1 ∧
      c.g ≤ ⌊(theme.g * y : ℚ) / 1080⌋₊ ∧ ⌊(theme.g * y : ℚ) / 1080⌋₊ ≤ c.g + 1 ∧
      c.b ≤ ⌊(theme.b * y : ℚ) / 1080⌋₊ ∧ ⌊(theme.b * y : ℚ) / 1080⌋₊ ≤ c.b + 1 := by
  have key : ∀ a : ℕ, a ≤ 255 →
      pyChannel a y ≤ ⌊(a : ℚ) * (y : ℚ) / 1080⌋₊ ∧
        ⌊(a : ℚ) * (y : ℚ) / 1080⌋₊ ≤ pyChannel a y + 1 := by
    intro a ha
    have hcast : ⌊(a : ℚ) * (y : ℚ) / 1080⌋₊ = a * y / 1080 := by
      rw [show ((a : ℚ) * (y : ℚ)) = (((a * y : ℕ) : ℚ)) by push_cast; ring]
      rw [show (1080 : ℚ) = ((1080 : ℕ) : ℚ) by norm_num]
      exact Nat.floor_div_eq_div (a * y) 1080
    rw [hcast]
    exact pyChannel_bracket a y ha hy
  exact ⟨rowColor theme y, pixelAt_eq theme x y hx hy,
    (key theme.r hr).1, (key theme.r hr).2, (key theme.g hg).1, (key theme.g hg).2,
    (key theme.b hb).1, (key theme.b hb).2⟩

/-- C3, amended, witness: the blue theme at pixel `(3, 540)`. -/
theorem c3_amended_witness :
    ∃ c : RGB, pixelAt ⟨0, 0, 255⟩ 3 540 = some c ∧
      c.r ≤ ⌊(((⟨0, 0, 255⟩ : RGB).r * 540 : ℚ)) / 1080⌋₊ ∧
        ⌊(((⟨0, 0, 255⟩ : RGB).r * 540 : ℚ)) / 1080⌋₊ ≤ c.r + 1 ∧
      c.g ≤ ⌊(((⟨0, 0, 255⟩ : RGB).g * 540 : ℚ)) / 1080⌋₊ ∧
        ⌊(((⟨0, 0, 255⟩ : RGB).g * 540 : ℚ)) / 1080⌋₊ ≤ c.g + 1 ∧
      c.b ≤ ⌊(((⟨0, 0, 255⟩ : RGB).b * 540 : ℚ)) / 1080⌋₊ ∧
        ⌊(((⟨0, 0, 255⟩ : RGB).b * 540 : ℚ)) / 1080⌋₊ ≤ c.b + 1 :=
  c3_amended_holds ⟨0, 0, 255⟩ 3 540 (by norm_num) (by norm_num) (by norm_num)
    (by norm_num) (by norm_num)

/-- C4: whenever the file has no tag container or its tags are unreadable
(including any exception during reading), `extract_metadata` returns
exactly the all-default record. -/
theorem c4_holds (f : FileResult) (h : noReadableTags f) :
    extract_metadata f = ⟨"Unknown Title", "Unknown Artist", "Unknown Album"⟩ := by
  rcases h with h | h | h <;> subst h <;> rfl

/-- C4, witness: a raising read yields the defaults. -/
theorem c4_witness :
    extract_metadata .raised = ⟨"Unknown Title", "Unknown Artist", "Unknown Album"⟩ :=
  c4_holds .raised (Or.inl rfl)

/-- C5: every beat `t` of the list receives an effect segment spanning
`[t, min (t + 0.1) duration)` whose transform is brighten by 1.5 followed
by the centered crop to 90 percent width and 90 percent height. -/
theorem c5_holds (duration : ℚ) (beats : List ℚ) (t : ℚ) (h : t ∈ beats) :
    (⟨t, min (t + 1 / 10) duration,
        [VideoOp.brighten (3 / 2), VideoOp.cropCentered (9 / 10) (9 / 10)]⟩ : Seg) ∈
      apply_beat_effects duration beats :=
  effect_mem_applyBeatsGo duration beats 0 t h

/-- C5, witness: the beat at 0.5 s of a 6-second clip. -/
theorem c5_witness :
    (⟨1 / 2, min ((1 / 2 : ℚ) + 1 / 10) 6,
        [VideoOp.brighten (3 / 2), VideoOp.cropCentered (9 / 10) (9 / 10)]⟩ : Seg) ∈
      apply_beat_effects 6 [1 / 2] :=
  c5_holds 6 [1 / 2] (1 / 2) (List.mem_singleton_self _)

/-- C6: when either path is empty `generate_video` shows the validation
error and does not run the pipeline; with both paths non-empty it invokes
the pipeline on exactly those paths. -/
theorem c6_holds (audio_path output_path : String) :
    ((audio_path = "" ∨ output_path = "") →
        generate_video audio_path output_path =
          .validationError "Please select both audio file and output file.") ∧
      (audio_path ≠ "" → output_path ≠ "" →
        generate_video audio_path output_path = .pipeline audio_path output_path) := by
  constructor
  · intro h
    rw [generate_video, if_pos h]
  · intro h1 h2
    rw [generate_video, if_neg (by tauto)]

/-- C6, witness: an empty audio path errors; two concrete paths run. -/
theorem c6_witness :
    generate_video "" "out.mp4" =
        .validationError "Please select both audio file and output file." ∧
      generate_video "song.mp3" "out.mp4" = .pipeline "song.mp3" "out.mp4" :=
  ⟨(c6_holds "" "out.mp4").1 (Or.inl rfl),
   (c6_holds "song.mp3" "out.mp4").2 (by simp) (by simp)⟩

/-- C7: the text overlaid on the final video is exactly the literal
three-line string with the metadata values substituted, positioned
bottom-center, for the full duration. -/
theorem c7_holds (f : FileResult) (duration : ℚ) (beats : List ℚ) :
    (generate_waveform_video_with_effects duration beats f).overlay =
      ⟨"Title: " ++ (extract_metadata f).title ++ "\nArtist: " ++ (extract_metadata f).artist ++
          "\nAlbum: " ++ (extract_metadata f).album, "center", "bottom", 24, "white", duration⟩ :=
  rfl

/-- C8: `generate_ai_visuals` is deterministic: two runs on equal themes
agree pixel for pixel. -/
theorem c8_holds (t1 t2 : RGB) (h : t1 = t2) (x y : ℕ) :
    pixelAt t1 x y = pixelAt t2 x y := by
  rw [h]

/-- C8, witness: two runs on the blue theme agree at pixel `(5, 7)`. -/
theorem c8_witness : pixelAt ⟨0, 0, 255⟩ 5 7 = pixelAt ⟨0, 0, 255⟩ 5 7 :=
  c8_holds ⟨0, 0, 255⟩ ⟨0, 0, 255⟩ rfl 5 7

/-- C9: with no beats and a positive duration, `apply_beat_effects` returns
the whole clip as a single identity segment covering `[0, duration)`. -/
theorem c9_holds (duration : ℚ) (h : 0 < duration) :
    apply_beat_effects duration [] = [⟨0, duration, []⟩] := by
  rw [apply_beat_effects, applyBeatsGo, if_pos h]

/-- C9, witness: a 6-second clip with no beats. -/
theorem c9_witness : apply_beat_effects 6 [] = [⟨0, 6, []⟩] :=
  c9_holds 6 (by norm_num)

